/-
Verification of the binary patch & relocation engine of `themida_unmutate/main.py`
against its natural-language specification.

The engine's pure logic (the packing loop, the redirect loop, the patch applier,
the input-map construction and the top-level orchestration of
`rebuild_simplified_binary`) is shallowly embedded below.  Python integers are
modelled as `Int`; byte strings as `List Int`; the miasm location database as an
association list from location keys to optional concrete offsets; the external
encoder (`asm_resolve_final`) as an explicit function parameter returning the
patch dictionary as a list of `(address, bytes)` pairs in key order.
-/
import Mathlib

namespace ThemidaUnmutate

/-! ### Location database

Modelled from the spec: miasm's process-wide `LocationDB` ("a shared table
mapping symbolic locations to optional concrete addresses"), with
`bind`/`unbind`/`lookup` operations.  A location key is either a key created
by the disassembler pass over the original image (`orig`) or the key created
for a redirect stub's label `loc_{addr:x}` by the assembly parser (`stub`). -/
inductive LocKey where
  | orig : Int → LocKey
  | stub : Int → LocKey
deriving DecidableEq, Repr

/-- A location database: entries `(key, optional bound offset)`. -/
abbrev LocDb : Type := List (LocKey × Option Int)

/-- The keys present in a database. -/
def dbKeys (db : LocDb) : List LocKey := db.map (·.1)

/-- Modelled from the spec: `set_location_offset` binds an existing key to an offset. -/
def setLocOffset (db : LocDb) (k : LocKey) (off : Int) : LocDb :=
  db.map (fun e => if e.1 = k then (k, some off) else e)

/-- Modelled from the spec: `unset_location_offset` clears a key's binding
(idempotent: clearing an unbound key is a no-op). -/
def unsetLocOffset (db : LocDb) (k : LocKey) : LocDb :=
  db.map (fun e => if e.1 = k then (k, (none : Option Int)) else e)

/-- Modelled from the spec: look up the offset bound to a key (none if unbound or absent). -/
def lookupOff (db : LocDb) (k : LocKey) : Option Int :=
  match db.find? (fun e => decide (e.1 = k)) with
  | some e => e.2
  | none => none

/-- Modelled from the spec: `get_offset_location` finds the key currently bound
to a given offset, if any. -/
def getOffsetLocation (db : LocDb) (off : Int) : Option LocKey :=
  (db.find? (fun e => decide (e.2 = some off))).map (·.1)

/-- Modelled from the spec: `get_name_location` after parsing a stub labelled
`loc_{addr:x}`: the parser creates the named location (unbound) when absent. -/
def ensureKey (db : LocDb) (k : LocKey) : LocDb :=
  if db.any (fun e => decide (e.1 = k)) then db else db ++ [(k, (none : Option Int))]

/-- At most one key of the database is bound to any given offset (miasm keeps
the offset-to-location direction functional). -/
def AtMostOneOffset (db : LocDb) : Prop :=
  ∀ e1 ∈ db, ∀ e2 ∈ db, e1.2 ≠ none → e1.2 = e2.2 → e1.1 = e2.1

instance (db : LocDb) : Decidable (AtMostOneOffset db) :=
  inferInstanceAs (Decidable (∀ e1 ∈ db, ∀ e2 ∈ db, _ ≠ _ → _ = _ → _ = _))

/-! ### CFGs and the packing loop (`rebuild_simplified_binary`, lines 112-144) -/

/-- A simplified `AsmCFG`, as the packing loop sees it: the location keys of its
blocks and the key of its head block (`heads()[0]`). -/
structure AsmCFG where
  head : LocKey
  blocks : List LocKey
deriving DecidableEq, Repr

/-- A patch: `(address, bytes)`. Bytes are modelled as `List Int`. -/
abbrev Patch := Int × List Int

/-- The external encoder `asm_resolve_final(arch, cfg, dst_interval)`: returns
the patch dictionary as a list of `(address, bytes)` pairs.  The interval is
the pair of endpoints the code passes to `interval([(lo, hi)])`. -/
abbrev Encoder := AsmCFG → LocDb → Int × Int → List Patch

/-- Python's `max(patches.keys())` (0 for an empty dictionary, where Python
would raise; theorems assume encoder output nonempty). -/
def maxKey : List Patch → Int
  | [] => 0
  | p :: ps => ps.foldl (fun m q => max m q.1) p.1

/-- Python's `min(patches.keys())`. -/
def minKey : List Patch → Int
  | [] => 0
  | p :: ps => ps.foldl (fun m q => min m q.1) p.1

/-- State threaded through the packing loop of `rebuild_simplified_binary`,
plus logs of the per-iteration cursor values, encoder invocations and head
bindings (so theorems can speak about what each iteration did). -/
structure PackState where
  db : LocDb
  cursor : Int
  patches : List Patch
  relocMap : List (Int × Int)
  groups : List (List Patch)
  ivls : List (Int × Int)
  headBinds : List Int
  cursBefore : List Int
  cursAfter : List Int
deriving Repr

/-- The binding part of one packing iteration (`main.py` lines 117-124): unpin
every block's location so the whole CFG becomes relocatable, then pin the head
block's location at the target address. -/
def relocateBindings (db : LocDb) (cfg : AsmCFG) (target : Int) : LocDb :=
  setLocOffset (cfg.blocks.foldl (fun d k => unsetLocOffset d k) db) cfg.head target

/-- One iteration of the packing loop (`main.py` lines 115-144): unpin every
block, pin the head at `base + cursor`, invoke the encoder with
`dst_interval = (base + cursor, base + vsize - cursor)`, append the patches,
record `original_addr -> min(keys)` and set the cursor to
`max(keys) - base + 15`. -/
def packStep (enc : Encoder) (base vsize : Int) (st : PackState) (f : Int × AsmCFG) :
    PackState :=
  let db2 := relocateBindings st.db f.2 (base + st.cursor)
  let iv : Int × Int := (base + st.cursor, base + vsize - st.cursor)
  let ps := enc f.2 db2 iv
  { db := db2
    cursor := maxKey ps - base + 15
    patches := st.patches ++ ps
    relocMap := st.relocMap ++ [(f.1, minKey ps)]
    groups := st.groups ++ [ps]
    ivls := st.ivls ++ [iv]
    headBinds := st.headBinds ++ [base + st.cursor]
    cursBefore := st.cursBefore ++ [st.cursor]
    cursAfter := st.cursAfter ++ [maxKey ps - base + 15] }

/-- Initial state of the packing loop over a database `db0`. -/
def initPackState (db0 : LocDb) : PackState :=
  { db := db0, cursor := 0, patches := [], relocMap := [], groups := [],
    ivls := [], headBinds := [], cursBefore := [], cursAfter := [] }

/-- The whole packing loop, over the items of `func_addr_to_simplified_cfg`
in insertion order. -/
def packRun (enc : Encoder) (base vsize : Int) (funcs : List (Int × AsmCFG))
    (db0 : LocDb) : PackState :=
  funcs.foldl (packStep enc base vsize) (initPackState db0)

/-! ### Patch application (`main.py` lines 146-152 and 188-193)

The code writes each patch with Python slice assignment
`buf[offset : offset + len(data)] = data`, where `offset = addr - base` is an
unbounded Python integer.  Python slice assignment never raises for integer
slices: a negative index is first shifted by the buffer length and then
clamped to `[0, len]`, and replacing a slice by a sequence of different
length resizes the buffer. -/

/-- Python's normalisation of a slice index against a buffer of length `n`. -/
def pyClamp (n i : Int) : Int :=
  min (max (if i < 0 then i + n else i) 0) n

/-- Python slice assignment `buf[i : j] = data` (step 1). -/
def pySliceAssign (buf : List Int) (i j : Int) (data : List Int) : List Int :=
  let n : Int := buf.length
  let i1 := pyClamp n i
  let j1 := max (pyClamp n j) i1
  buf.take i1.toNat ++ data ++ buf.drop j1.toNat

/-- The patch applier: for each `(addr, data)`,
`buf[addr - base : addr - base + len(data)] = data`, in list order. -/
def applyPatches (base : Int) (buf : List Int) (patches : List Patch) : List Int :=
  patches.foldl
    (fun b p => pySliceAssign b (p.1 - base) (p.1 - base + p.2.length) p.2) buf

/-- Follows the claim's words, for comparison with `applyPatches`: compute
`offset = addr - base`; fail when `offset < 0` or
`offset + len(bytes) > capacity`; otherwise overwrite at `offset`. -/
def applyPatchesChecked (base capacity : Int) (buf : List Int)
    (patches : List Patch) : Except String (List Int) :=
  patches.foldlM
    (fun b p =>
      let off := p.1 - base
      if off < 0 ∨ off + p.2.length > capacity then
        Except.error "patch out of section bounds"
      else
        Except.ok (b.take off.toNat ++ p.2 ++ b.drop (off + p.2.length).toNat))
    buf

/-! ### Redirect generation (`main.py` lines 160-185)

Modelled from the spec for the external assembler: parsing
`"loc_{a:x}:\nJMP 0x{b:x}"` yields a one-block CFG holding the single
unconditional jump `JMP b` under the fresh named location `LocKey.stub a`, and
`asm_resolve_final` with no `dst_interval` encodes that block at its pinned
address `a` as a `JMP rel32` (opcode `0xE9` followed by the little-endian
32-bit displacement to the target from the end of the 5-byte instruction). -/

/-- An abstract decoded instruction; the engine only deals in unconditional jumps. -/
inductive X86Instr where
  | jmp : Int → X86Instr
deriving DecidableEq, Repr

/-- Little-endian 32-bit byte encoding of a value in `[0, 2^32)`. -/
def le32 (v : Int) : List Int :=
  [v % 256, v / 256 % 256, v / 65536 % 256, v / 16777216 % 256]

/-- Value of four little-endian bytes. -/
def from32 (b0 b1 b2 b3 : Int) : Int :=
  b0 + 256 * b1 + 65536 * b2 + 16777216 * b3

/-- Modelled from the spec: encode one instruction pinned at `addr`. -/
def encodeInstr (addr : Int) : X86Instr → List Int
  | .jmp t => 0xE9 :: le32 ((t - (addr + 5)) % 4294967296)

/-- Modelled from the spec: decode the bytes at `addr` as exactly one
instruction consuming all of them. -/
def decodeInstr (addr : Int) (bs : List Int) : Option X86Instr :=
  match bs with
  | [op, b0, b1, b2, b3] =>
      if op = 0xE9 then
        some (X86Instr.jmp ((addr + 5 + from32 b0 b1 b2 b3) % 4294967296))
      else none
  | _ => none

/-- The per-pair trace recorded by the redirect loop: the database as passed
to the encoder, the `dst_interval` argument (always absent in the code), and
the patches the encoder returned for this stub. -/
structure RedirectTrace where
  dbAtEncode : LocDb
  dstInterval : Option (Int × Int)
  patches : List Patch
deriving Repr

/-- State threaded through the redirect loop. -/
structure RedirectState where
  db : LocDb
  patches : List Patch
  traces : List RedirectTrace
deriving Repr

/-- The database update of one redirect iteration (`main.py` lines 172-179):
unpin whatever location is currently bound at `target_addr`, create the
stub's named location if needed, and pin it at `target_addr`. -/
def redirectDb (db : LocDb) (a : Int) : LocDb :=
  setLocOffset
    (ensureKey
      (match getOffsetLocation db a with
       | some k => unsetLocOffset db k
       | none => db)
      (LocKey.stub a))
    (LocKey.stub a) a

/-- One iteration of the redirect loop (`main.py` lines 162-185) for a pair
`(target_addr, simplified_func_addr)`: build the one-instruction stub CFG,
rebind locations via `redirectDb`, and encode with no placement interval. -/
def redirectStep (st : RedirectState) (p : Int × Int) : RedirectState :=
  let a := p.1
  let b := p.2
  let db2 := redirectDb st.db a
  let ps : List Patch := [(a, encodeInstr a (X86Instr.jmp b))]
  { db := db2
    patches := st.patches ++ ps
    traces := st.traces ++ [⟨db2, none, ps⟩] }

/-- The whole redirect loop over the relocation map's pairs in order. -/
def redirectRun (db0 : LocDb) (relocMap : List (Int × Int)) : RedirectState :=
  relocMap.foldl redirectStep ⟨db0, [], []⟩

/-! ### Input map construction (`main.py` lines 34-37)

`func_addr_to_simplified_cfg` is a Python dict comprehension
`{protected_func_addrs[i]: asm_cfg for i, asm_cfg in enumerate(simplified)}`:
repeated insertion, where inserting an existing key keeps its position and
overwrites its value. -/

/-- Python dict insertion on an insertion-ordered association list. -/
def dictInsert (d : List (Int × AsmCFG)) (k : Int) (v : AsmCFG) :
    List (Int × AsmCFG) :=
  if d.any (fun e => decide (e.1 = k)) then
    d.map (fun e => if e.1 = k then (k, v) else e)
  else d ++ [(k, v)]

/-- Python dict lookup. -/
def dictFind (d : List (Int × AsmCFG)) (k : Int) : Option AsmCFG :=
  (d.find? (fun e => decide (e.1 = k))).map (·.2)

/-- The dict comprehension of `entry_point`: pair the i-th protected address
with the i-th simplified CFG, inserting in index order. -/
def buildFuncMap (addrs : List Int) (cfgs : List AsmCFG) : List (Int × AsmCFG) :=
  (addrs.zip cfgs).foldl (fun d p => dictInsert d p.1 p.2) []

/-! ### Top-level orchestration (`rebuild_simplified_binary`) -/

/-- A PE section as the engine sees it: name, RVA, virtual size and content. -/
structure PESection where
  name : String
  virtualAddress : Int
  virtualSize : Int
  content : List Int
deriving Repr

/-- The parsed PE image: image base, sections, and the RVA at which lief
would place the next appended section. -/
structure PEObj where
  imagebase : Int
  sections : List PESection
  nextRva : Int
deriving Repr

/-- Error taxonomy of `rebuild_simplified_binary`. -/
inductive RebuildError where
  | usageError
  | parseError
  | sectionNotFound
deriving DecidableEq, Repr

/-- `section_from_virtual_address` (`main.py` lines 203-210): first section
whose `[virtual_address, virtual_address + size)` range contains the RVA. -/
def sectionFromVirtualAddress (sections : List PESection) (virtualAddr : Int) :
    Option PESection :=
  sections.find? (fun s =>
    decide (s.virtualAddress ≤ virtualAddr ∧
      virtualAddr < s.virtualAddress + s.virtualSize))

/-- `rebuild_simplified_binary` (`main.py` lines 81-200): the empty-input
check, section creation, packing, section rewrite, text-section lookup,
redirect generation and patch application, in program order.  Serialization
is modelled as returning the final image. -/
def rebuildSimplifiedBinary (enc : Encoder) (db0 : LocDb)
    (funcMap : List (Int × AsmCFG)) (peParse : Option PEObj) :
    Except RebuildError PEObj :=
  if funcMap.length = 0 then Except.error RebuildError.usageError
  else
    match peParse with
    | none => Except.error RebuildError.parseError
    | some pe =>
      let unmutSection : PESection :=
        { name := ".unmut", virtualAddress := pe.nextRva,
          virtualSize := 65536, content := List.replicate 65536 0 }
      let pe1 : PEObj :=
        { pe with sections := pe.sections ++ [unmutSection] }
      let unmutSectionBase := pe1.imagebase + unmutSection.virtualAddress
      let packed := packRun enc unmutSectionBase unmutSection.virtualSize funcMap db0
      let newSectionSize := packed.cursor
      let newContent :=
        applyPatches unmutSectionBase (List.replicate newSectionSize.toNat 0)
          packed.patches
      let unmutSection2 := { unmutSection with content := newContent }
      let pe2 : PEObj := { pe1 with sections := pe.sections ++ [unmutSection2] }
      let targetRva := (funcMap.map (·.1)).headI - pe2.imagebase
      match sectionFromVirtualAddress pe2.sections targetRva with
      | none => Except.error RebuildError.sectionNotFound
      | some textSection =>
        let textSectionBase := pe2.imagebase + textSection.virtualAddress
        let redirected := redirectRun packed.db packed.relocMap
        let textBytes := applyPatches textSectionBase textSection.content
          redirected.patches
        let pe3 : PEObj :=
          { pe2 with
            sections := pe2.sections.map (fun s =>
              if s.name = textSection.name then { s with content := textBytes }
              else s) }
        Except.ok pe3

/-! ### Helper lemmas on `minKey` and `maxKey` -/

lemma foldl_max_init_le (l : List Int) (a : Int) : a ≤ l.foldl max a := by
  induction l generalizing a with
  | nil => exact le_refl a
  | cons x t ih => exact le_trans (le_max_left a x) (ih (max a x))

lemma foldl_min_le_init (l : List Int) (a : Int) : l.foldl min a ≤ a := by
  induction l generalizing a with
  | nil => exact le_refl a
  | cons x t ih => exact le_trans (ih (min a x)) (min_le_left a x)

lemma mem_le_foldl_max (l : List Int) (a x : Int) (hx : x ∈ l) : x ≤ l.foldl max a := by
  induction l generalizing a with
  | nil => cases hx
  | cons y t ih =>
    rcases List.mem_cons.mp hx with h | h
    · subst h
      exact le_trans (le_max_right a x) (foldl_max_init_le t (max a x))
    · exact ih (max a y) h

lemma foldl_min_le_mem (l : List Int) (a x : Int) (hx : x ∈ l) : l.foldl min a ≤ x := by
  induction l generalizing a with
  | nil => cases hx
  | cons y t ih =>
    rcases List.mem_cons.mp hx with h | h
    · subst h
      exact le_trans (foldl_min_le_init t (min a x)) (min_le_right a x)
    · exact ih (min a y) h

lemma le_foldl_min (l : List Int) (a c : Int) (ha : c ≤ a) (h : ∀ x ∈ l, c ≤ x) :
    c ≤ l.foldl min a := by
  induction l generalizing a with
  | nil => exact ha
  | cons x t ih =>
    exact ih (min a x) (le_min ha (h x (List.mem_cons_self x t)))
      (fun y hy => h y (List.mem_cons_of_mem x hy))

lemma le_maxKey (ps : List Patch) (p : Patch) (hp : p ∈ ps) : p.1 ≤ maxKey ps := by
  match ps with
  | [] => cases hp
  | q :: t =>
    rcases List.mem_cons.mp hp with h | h
    · subst h
      exact foldl_max_init_le (t.map (·.1)) p.1 |>.trans_eq (by rw [List.foldl_map]; rfl)
        |>.trans_eq rfl
    · show p.1 ≤ t.foldl (fun m r => max m r.1) q.1
      have : p.1 ∈ t.map (·.1) := List.mem_map_of_mem (·.1) h
      have := mem_le_foldl_max (t.map (·.1)) q.1 p.1 this
      rwa [List.foldl_map] at this

lemma minKey_le (ps : List Patch) (p : Patch) (hp : p ∈ ps) : minKey ps ≤ p.1 := by
  match ps with
  | [] => cases hp
  | q :: t =>
    rcases List.mem_cons.mp hp with h | h
    · subst h
      show t.foldl (fun m r => min m r.1) p.1 ≤ p.1
      have := foldl_min_le_init (t.map (·.1)) p.1
      rwa [List.foldl_map] at this
    · show t.foldl (fun m r => min m r.1) q.1 ≤ p.1
      have hm : p.1 ∈ t.map (·.1) := List.mem_map_of_mem (·.1) h
      have := foldl_min_le_mem (t.map (·.1)) q.1 p.1 hm
      rwa [List.foldl_map] at this

lemma le_minKey (ps : List Patch) (c : Int) (hne : ps ≠ [])
    (h : ∀ p ∈ ps, c ≤ p.1) : c ≤ minKey ps := by
  match ps with
  | [] => exact absurd rfl hne
  | q :: t =>
    show c ≤ t.foldl (fun m r => min m r.1) q.1
    have := le_foldl_min (t.map (·.1)) q.1 c (h q (List.mem_cons_self q t))
      (fun x hx => by
        rcases List.mem_map.mp hx with ⟨p, hp, rfl⟩
        exact h p (List.mem_cons_of_mem q hp))
    rwa [List.foldl_map] at this

lemma minKey_le_maxKey (ps : List Patch) (hne : ps ≠ []) : minKey ps ≤ maxKey ps := by
  match ps with
  | [] => exact absurd rfl hne
  | q :: t =>
    exact le_trans (minKey_le (q :: t) q (List.mem_cons_self q t))
      (le_maxKey (q :: t) q (List.mem_cons_self q t))

lemma le_maxKey_of_lower (ps : List Patch) (c : Int) (hne : ps ≠ [])
    (h : ∀ p ∈ ps, c ≤ p.1) : c ≤ maxKey ps :=
  le_trans (le_minKey ps c hne h) (minKey_le_maxKey ps hne)

lemma minKey_eq_of_lower_mem (ps : List Patch) (c : Int) (hne : ps ≠ [])
    (hlo : ∀ p ∈ ps, c ≤ p.1) (hmem : ∃ p ∈ ps, p.1 = c) : minKey ps = c := by
  rcases hmem with ⟨p, hp, hpc⟩
  exact le_antisymm (hpc ▸ minKey_le ps p hp) (le_minKey ps c hne hlo)

/-! ### Concrete fixtures used by witnesses and counterexamples -/

/-- An encoder that emits a single one-byte patch (a `NOP`) at the interval's
lower endpoint. -/
def nopEncoder : Encoder := fun _ _ iv => [(iv.1, [144])]

/-- An encoder that emits one 16-byte block (for instance two 8-byte
instructions) at the interval's lower endpoint. -/
def wideEncoder : Encoder := fun _ _ iv => [(iv.1, List.replicate 16 144)]

/-- An encoder that emits one 5-byte block at the interval's lower endpoint. -/
def fiveByteEncoder : Encoder := fun _ _ iv => [(iv.1, [72, 131, 196, 8, 195])]

/-- A one-block CFG. -/
def cfgOne : AsmCFG := ⟨LocKey.orig 0, [LocKey.orig 0]⟩

/-- A database binding that CFG's block to its original file offset. -/
def dbOne : LocDb := [(LocKey.orig 0, some 999)]

/-- The spec's `consumed_high_watermark`: the maximum end address
(`address + len(bytes)`) among a list of patches. -/
def maxEndKey : List Patch → Int
  | [] => 0
  | p :: ps => ps.foldl (fun m q => max m (q.1 + q.2.length)) (p.1 + p.2.length)

/-! ### C9: empty input set -/

/-- C9: if the set of function addresses given to the rebuild step is empty,
the run fails with the usage error; the check is the first statement of
`rebuild_simplified_binary`, before the image is parsed or any section is
created, so the returned error carries no mutated image. -/
theorem rebuild_empty_input_usage_error (enc : Encoder) (db0 : LocDb)
    (peParse : Option PEObj) :
    rebuildSimplifiedBinary enc db0 [] peParse =
      Except.error RebuildError.usageError := rfl

/-! ### C3: cursor update after each relocated function -/

lemma packFold_cursor_groups (enc : Encoder) (base vsize : Int) :
    ∀ (funcs : List (Int × AsmCFG)) (st : PackState),
      List.Forall₂ (fun g c => c = maxKey g - base + 15) st.groups st.cursAfter →
      List.Forall₂ (fun g c => c = maxKey g - base + 15)
        (funcs.foldl (packStep enc base vsize) st).groups
        (funcs.foldl (packStep enc base vsize) st).cursAfter := by
  intro funcs
  induction funcs with
  | nil => intro st h; exact h
  | cons f t ih =>
    intro st h
    exact ih _ (List.rel_append h (List.forall₂_cons.mpr ⟨rfl, List.Forall₂.nil⟩))

/-- C3 (amended): the code's high watermark for function `i` is the maximum
patch START address, not the maximum end address: after each iteration the
cursor equals `max(patch addresses) - section_base + 15`. -/
theorem pack_cursor_uses_max_patch_start (enc : Encoder) (base vsize : Int)
    (funcs : List (Int × AsmCFG)) (db0 : LocDb) :
    List.Forall₂ (fun g c => c = maxKey g - base + 15)
      (packRun enc base vsize funcs db0).groups
      (packRun enc base vsize funcs db0).cursAfter :=
  packFold_cursor_groups enc base vsize funcs (initPackState db0) List.Forall₂.nil

/-- C3 (counterexample): with an encoder returning a single 5-byte patch at
the interval base, the cursor after function 0 is `15`, but the claim's
`max end address - base + 15` is `20`: the code ignores the byte length of
the patch at the maximum address. -/
theorem pack_cursor_not_from_end_addresses :
    (packRun fiveByteEncoder 0 65536 [(10, cfgOne)] dbOne).cursAfter ≠
      [maxEndKey ((packRun fiveByteEncoder 0 65536 [(10, cfgOne)] dbOne).groups.headI)
        - 0 + 15] := by decide

/-! ### C4: the placement interval passed to the encoder -/

lemma packFold_curs_ivls (enc : Encoder) (base vsize : Int) :
    ∀ (funcs : List (Int × AsmCFG)) (st : PackState),
      List.Forall₂ (fun c iv => iv = (base + c, base + vsize - c))
        st.cursBefore st.ivls →
      List.Forall₂ (fun c iv => iv = (base + c, base + vsize - c))
        (funcs.foldl (packStep enc base vsize) st).cursBefore
        (funcs.foldl (packStep enc base vsize) st).ivls := by
  intro funcs
  induction funcs with
  | nil => intro st h; exact h
  | cons f t ih =>
    intro st h
    exact ih _ (List.rel_append h (List.forall₂_cons.mpr ⟨rfl, List.Forall₂.nil⟩))

/-- C4 (amended): for a function relocated at cursor offset `c`, the encoder's
placement interval is `(section_base + c, section_base + virtual_size - c)`:
the upper endpoint also has the cursor subtracted, so it is NOT the fixed end
of the section but shrinks as the cursor advances. -/
theorem pack_placement_interval_endpoints (enc : Encoder) (base vsize : Int)
    (funcs : List (Int × AsmCFG)) (db0 : LocDb) :
    List.Forall₂ (fun c iv => iv = (base + c, base + vsize - c))
      (packRun enc base vsize funcs db0).cursBefore
      (packRun enc base vsize funcs db0).ivls :=
  packFold_curs_ivls enc base vsize funcs (initPackState db0) List.Forall₂.nil

/-- C4 (counterexample): packing two one-byte functions into a section at base
`4096` of size `65536`, the second encoder invocation receives the interval
`(4111, 69617)` whose upper endpoint differs from the section end `69632`. -/
theorem pack_placement_interval_end_not_fixed :
    ¬ ∀ iv ∈ (packRun nopEncoder 4096 65536 [(10, cfgOne), (20, cfgOne)] dbOne).ivls,
        iv.2 = 4096 + 65536 := by decide

/-! ### C7: the patch applier -/

lemma pyClamp_of_nonneg_le (n i : Int) (h0 : 0 ≤ i) (h1 : i ≤ n) :
    pyClamp n i = i := by
  unfold pyClamp
  rw [if_neg (not_lt.mpr h0), max_eq_left h0, min_eq_left h1]

/-- C7 (amended): the applier performs no bounds check at all (it is a total
function built from Python slice assignment); for a patch whose offset
`addr - base` is in range it overwrites exactly `len(bytes)` bytes of prior
content at that offset, preserving the buffer length. -/
theorem apply_patch_writes_at_offset (base : Int) (buf data : List Int)
    (addr : Int) (h0 : 0 ≤ addr - base)
    (h1 : addr - base + (data.length : Int) ≤ (buf.length : Int)) :
    applyPatches base buf [(addr, data)] =
      buf.take (addr - base).toNat ++ data ++
        buf.drop (addr - base + (data.length : Int)).toNat ∧
    (applyPatches base buf [(addr, data)]).length = buf.length := by
  have hi : pyClamp (buf.length : Int) (addr - base) = addr - base :=
    pyClamp_of_nonneg_le _ _ h0 (by omega)
  have hj : pyClamp (buf.length : Int) (addr - base + (data.length : Int)) =
      addr - base + (data.length : Int) :=
    pyClamp_of_nonneg_le _ _ (by omega) h1
  have heq : applyPatches base buf [(addr, data)] =
      buf.take (addr - base).toNat ++ data ++
        buf.drop (addr - base + (data.length : Int)).toNat := by
    simp only [applyPatches, List.foldl_cons, List.foldl_nil, pySliceAssign]
    rw [hi, hj, max_eq_left (by omega)]
  refine ⟨heq, ?_⟩
  rw [heq]
  simp only [List.length_append, List.length_take, List.length_drop]
  omega

/-- Witness for the amended C7 theorem at `base = 100`, an 8-byte buffer and
the patch `(102, [7, 8])`. -/
theorem apply_patch_writes_at_offset_witness :
    0 ≤ (102 : Int) - 100 ∧
    (applyPatches 100 (List.replicate 8 0) [(102, [7, 8])] =
      (List.replicate 8 (0 : Int)).take ((102 : Int) - 100).toNat ++ [7, 8] ++
        (List.replicate 8 (0 : Int)).drop
          ((102 : Int) - 100 + (([7, 8] : List Int).length : Int)).toNat ∧
    (applyPatches 100 (List.replicate 8 0) [(102, [7, 8])]).length =
      (List.replicate 8 (0 : Int)).length) :=
  ⟨by decide,
   apply_patch_writes_at_offset 100 (List.replicate 8 0) [7, 8] 102
     (by decide) (by decide)⟩

/-- C7 (counterexample): for the patch `(95, [1, 2])` against a section based
at `100` with an 8-byte buffer, the offset is `-5 < 0`; a bounds-checking
applier following the claim's words fails, but the code's applier succeeds
and Python slice semantics silently write the bytes at the wrapped position
`3` (counted from the end of the buffer). -/
theorem apply_patch_negative_offset_no_failure :
    applyPatchesChecked 100 8 (List.replicate 8 0) [(95, [1, 2])] =
      Except.error "patch out of section bounds" ∧
    applyPatches 100 (List.replicate 8 0) [(95, [1, 2])] =
      [0, 0, 0, 1, 2, 0, 0, 0] := by
  exact ⟨rfl, by decide⟩

/-! ### C5: relocated entry addresses are strictly increasing -/

/-- Invariant of the packing loop: recorded relocated entries are strictly
increasing and all lie at least `15` bytes below `base + cursor`. -/
def PackOrdInv (base : Int) (st : PackState) : Prop :=
  List.Pairwise (· < ·) (st.relocMap.map (·.2)) ∧
  ∀ v ∈ st.relocMap.map (·.2), v + 15 ≤ base + st.cursor

lemma packStep_ord (enc : Encoder) (base vsize : Int)
    (Hne : ∀ cfg db iv, enc cfg db iv ≠ [])
    (Hlo : ∀ cfg db iv, ∀ p ∈ enc cfg db iv, iv.1 ≤ p.1)
    (st : PackState) (f : Int × AsmCFG) (h : PackOrdInv base st) :
    PackOrdInv base (packStep enc base vsize st f) := by
  obtain ⟨hpw, hbd⟩ := h
  simp only [packStep, PackOrdInv]
  set db2 := relocateBindings st.db f.2 (base + st.cursor) with hdb2
  set iv : Int × Int := (base + st.cursor, base + vsize - st.cursor) with hiv
  set ps := enc f.2 db2 iv with hps
  have hne : ps ≠ [] := Hne f.2 db2 iv
  have hlo : ∀ p ∈ ps, base + st.cursor ≤ p.1 := Hlo f.2 db2 iv
  have hmin : base + st.cursor ≤ minKey ps := le_minKey ps _ hne hlo
  have hmax : base + st.cursor ≤ maxKey ps := le_maxKey_of_lower ps _ hne hlo
  have hmm : minKey ps ≤ maxKey ps := minKey_le_maxKey ps hne
  constructor
  · rw [List.map_append]
    refine List.pairwise_append.mpr ⟨hpw, List.pairwise_singleton _ _, ?_⟩
    intro v hv w hw
    rcases List.mem_singleton.mp hw with rfl
    have := hbd v hv
    simp only [List.map_cons, List.map_nil, List.mem_singleton] at *
    omega
  · intro v hv
    rw [List.map_append] at hv
    rcases List.mem_append.mp hv with hv | hv
    · have := hbd v hv
      omega
    · simp only [List.map_cons, List.map_nil, List.mem_singleton] at hv
      omega

lemma packFold_ord (enc : Encoder) (base vsize : Int)
    (Hne : ∀ cfg db iv, enc cfg db iv ≠ [])
    (Hlo : ∀ cfg db iv, ∀ p ∈ enc cfg db iv, iv.1 ≤ p.1) :
    ∀ (funcs : List (Int × AsmCFG)) (st : PackState), PackOrdInv base st →
      PackOrdInv base (funcs.foldl (packStep enc base vsize) st) := by
  intro funcs
  induction funcs with
  | nil => intro st h; exact h
  | cons f t ih =>
    intro st h
    exact ih _ (packStep_ord enc base vsize Hne Hlo st f h)

/-- C5: for every encoder that returns a nonempty patch set placed at or above
the interval's lower endpoint, the relocated entry addresses recorded in the
relocation map are strictly increasing in the input order of the functions. -/
theorem pack_entries_strictly_increasing (enc : Encoder) (base vsize : Int)
    (funcs : List (Int × AsmCFG)) (db0 : LocDb)
    (Hne : ∀ cfg db iv, enc cfg db iv ≠ [])
    (Hlo : ∀ cfg db iv, ∀ p ∈ enc cfg db iv, iv.1 ≤ p.1) :
    List.Pairwise (· < ·)
      ((packRun enc base vsize funcs db0).relocMap.map (·.2)) :=
  (packFold_ord enc base vsize Hne Hlo funcs (initPackState db0)
    ⟨List.Pairwise.nil, by intro v hv; cases hv⟩).1

/-- Witness for C5: two one-byte functions packed at base `4096` receive the
strictly increasing entries `4096 < 4111`. -/
theorem pack_entries_strictly_increasing_witness :
    List.Pairwise (· < ·)
      ((packRun nopEncoder 4096 65536 [(10, cfgOne), (20, cfgOne)]
        dbOne).relocMap.map (·.2)) :=
  pack_entries_strictly_increasing nopEncoder 4096 65536
    [(10, cfgOne), (20, cfgOne)] dbOne
    (fun _ _ _ => by simp [nopEncoder])
    (fun _ _ iv p hp => by
      simp only [nopEncoder, List.mem_singleton] at hp
      rw [hp])

/-! ### C2: non-overlap of distinct functions' patch ranges -/

/-- Invariant of the packing loop: earlier groups lie strictly below later
ones, and every already-recorded patch ends at or below `base + cursor`. -/
def PackSepInv (base : Int) (st : PackState) : Prop :=
  List.Pairwise (fun g1 g2 => ∀ p ∈ g1, ∀ q ∈ g2,
    p.1 + (p.2.length : Int) ≤ q.1) st.groups ∧
  ∀ g ∈ st.groups, ∀ p ∈ g, p.1 + (p.2.length : Int) ≤ base + st.cursor

lemma packStep_sep (enc : Encoder) (base vsize : Int)
    (Hne : ∀ cfg db iv, enc cfg db iv ≠ [])
    (Hlo : ∀ cfg db iv, ∀ p ∈ enc cfg db iv, iv.1 ≤ p.1)
    (Hlen : ∀ cfg db iv, ∀ p ∈ enc cfg db iv, (p.2.length : Int) ≤ 15)
    (st : PackState) (f : Int × AsmCFG) (h : PackSepInv base st) :
    PackSepInv base (packStep enc base vsize st f) := by
  obtain ⟨hpw, hbd⟩ := h
  simp only [packStep, PackSepInv]
  set db2 := relocateBindings st.db f.2 (base + st.cursor) with hdb2
  set iv : Int × Int := (base + st.cursor, base + vsize - st.cursor) with hiv
  set ps := enc f.2 db2 iv with hps
  have hne : ps ≠ [] := Hne f.2 db2 iv
  have hlo : ∀ p ∈ ps, base + st.cursor ≤ p.1 := Hlo f.2 db2 iv
  have hlen : ∀ p ∈ ps, (p.2.length : Int) ≤ 15 := Hlen f.2 db2 iv
  have hmax : base + st.cursor ≤ maxKey ps := le_maxKey_of_lower ps _ hne hlo
  constructor
  · refine List.pairwise_append.mpr ⟨hpw, List.pairwise_singleton _ _, ?_⟩
    intro g hg g2 hg2 p hp q hq
    rcases List.mem_singleton.mp hg2 with rfl
    have h1 := hbd g hg p hp
    have h2 := hlo q hq
    omega
  · intro g hg p hp
    rcases List.mem_append.mp hg with hg | hg
    · have := hbd g hg p hp
      omega
    · rcases List.mem_singleton.mp hg with rfl
      have h1 := le_maxKey ps p hp
      have h2 := hlen p hp
      omega

lemma packFold_sep (enc : Encoder) (base vsize : Int)
    (Hne : ∀ cfg db iv, enc cfg db iv ≠ [])
    (Hlo : ∀ cfg db iv, ∀ p ∈ enc cfg db iv, iv.1 ≤ p.1)
    (Hlen : ∀ cfg db iv, ∀ p ∈ enc cfg db iv, (p.2.length : Int) ≤ 15) :
    ∀ (funcs : List (Int × AsmCFG)) (st : PackState), PackSepInv base st →
      PackSepInv base (funcs.foldl (packStep enc base vsize) st) := by
  intro funcs
  induction funcs with
  | nil => intro st h; exact h
  | cons f t ih =>
    intro st h
    exact ih _ (packStep_sep enc base vsize Hne Hlo Hlen st f h)

/-- C2 (amended): if every patch the encoder returns is at most 15 bytes long
(in addition to being nonempty and placed at or above the interval's lower
endpoint), then the address ranges `[address, address + len(bytes))` of any
two distinct functions' patches are disjoint.  Without the 15-byte bound the
claim is false (see the counterexample): the pad only absorbs up to 15 bytes
of the last block. -/
theorem pack_groups_disjoint (enc : Encoder) (base vsize : Int)
    (funcs : List (Int × AsmCFG)) (db0 : LocDb)
    (Hne : ∀ cfg db iv, enc cfg db iv ≠ [])
    (Hlo : ∀ cfg db iv, ∀ p ∈ enc cfg db iv, iv.1 ≤ p.1)
    (Hlen : ∀ cfg db iv, ∀ p ∈ enc cfg db iv, (p.2.length : Int) ≤ 15) :
    List.Pairwise (fun g1 g2 => ∀ p ∈ g1, ∀ q ∈ g2,
        p.1 + (p.2.length : Int) ≤ q.1 ∨ q.1 + (q.2.length : Int) ≤ p.1)
      (packRun enc base vsize funcs db0).groups :=
  ((packFold_sep enc base vsize Hne Hlo Hlen funcs (initPackState db0)
    ⟨List.Pairwise.nil, by intro g hg; cases hg⟩).1).imp
    (fun h p hp q hq => Or.inl (h p hp q hq))

/-- Witness for the amended C2 theorem with one-byte patches. -/
theorem pack_groups_disjoint_witness :
    List.Pairwise (fun g1 g2 => ∀ p ∈ g1, ∀ q ∈ g2,
        p.1 + (p.2.length : Int) ≤ q.1 ∨ q.1 + (q.2.length : Int) ≤ p.1)
      (packRun nopEncoder 4096 65536 [(10, cfgOne), (20, cfgOne)] dbOne).groups :=
  pack_groups_disjoint nopEncoder 4096 65536 [(10, cfgOne), (20, cfgOne)] dbOne
    (fun _ _ _ => by simp [nopEncoder])
    (fun _ _ iv p hp => by
      simp only [nopEncoder, List.mem_singleton] at hp
      rw [hp])
    (fun _ _ iv p hp => by
      simp only [nopEncoder, List.mem_singleton] at hp
      rw [hp]
      simp)

/-- C2 (counterexample): an encoder whose (single) block for each function is
16 bytes long satisfies the encoder contract, yet the two functions' patch
ranges `[0, 16)` and `[15, 31)` overlap at address 15: the 15-byte pad is
measured from the last patch's START address and cannot absorb a block longer
than 15 bytes. -/
theorem pack_sixteen_byte_block_overlap :
    ¬ List.Pairwise (fun g1 g2 => ∀ p ∈ g1, ∀ q ∈ g2,
        p.1 + (p.2.length : Int) ≤ q.1 ∨ q.1 + (q.2.length : Int) ≤ p.1)
      (packRun wideEncoder 0 65536 [(10, cfgOne), (20, cfgOne)] dbOne).groups := by
  intro h
  have hg : (packRun wideEncoder 0 65536 [(10, cfgOne), (20, cfgOne)] dbOne).groups =
      [[(0, List.replicate 16 144)], [(15, List.replicate 16 144)]] := by decide
  rw [hg] at h
  have := (List.pairwise_cons.mp h).1 [(15, List.replicate 16 144)]
    (List.mem_singleton.mpr rfl) (0, List.replicate 16 144)
    (List.mem_singleton.mpr rfl) (15, List.replicate 16 144)
    (List.mem_singleton.mpr rfl)
  simp only [List.length_replicate] at this
  omega

/-! ### C6: relocation-map entry equals the minimum patch address and the
bound head address -/

/-- Invariant of the packing loop: the recorded relocated entries coincide
with the logged head bindings and with the minimum patch address of the
corresponding group. -/
def PackHeadInv (st : PackState) : Prop :=
  st.relocMap.map (·.2) = st.headBinds ∧
  List.Forall₂ (fun r g => r.2 = minKey g) st.relocMap st.groups

lemma packStep_head (enc : Encoder) (base vsize : Int)
    (Hne : ∀ cfg db iv, enc cfg db iv ≠ [])
    (Hlo : ∀ cfg db iv, ∀ p ∈ enc cfg db iv, iv.1 ≤ p.1)
    (Hhead : ∀ cfg db iv, ∃ p ∈ enc cfg db iv, p.1 = iv.1)
    (st : PackState) (f : Int × AsmCFG) (h : PackHeadInv st) :
    PackHeadInv (packStep enc base vsize st f) := by
  obtain ⟨hmap, hf2⟩ := h
  simp only [packStep, PackHeadInv]
  set db2 := relocateBindings st.db f.2 (base + st.cursor) with hdb2
  set iv : Int × Int := (base + st.cursor, base + vsize - st.cursor) with hiv
  set ps := enc f.2 db2 iv with hps
  have hne : ps ≠ [] := Hne f.2 db2 iv
  have hlo : ∀ p ∈ ps, base + st.cursor ≤ p.1 := Hlo f.2 db2 iv
  have hmem : ∃ p ∈ ps, p.1 = base + st.cursor := Hhead f.2 db2 iv
  have hmin : minKey ps = base + st.cursor :=
    minKey_eq_of_lower_mem ps _ hne hlo hmem
  constructor
  · rw [List.map_append, hmap, hmin]
    rfl
  · exact List.rel_append hf2 (List.forall₂_cons.mpr ⟨rfl, List.Forall₂.nil⟩)

lemma packFold_head (enc : Encoder) (base vsize : Int)
    (Hne : ∀ cfg db iv, enc cfg db iv ≠ [])
    (Hlo : ∀ cfg db iv, ∀ p ∈ enc cfg db iv, iv.1 ≤ p.1)
    (Hhead : ∀ cfg db iv, ∃ p ∈ enc cfg db iv, p.1 = iv.1) :
    ∀ (funcs : List (Int × AsmCFG)) (st : PackState), PackHeadInv st →
      PackHeadInv (funcs.foldl (packStep enc base vsize) st) := by
  intro funcs
  induction funcs with
  | nil => intro st h; exact h
  | cons f t ih =>
    intro st h
    exact ih _ (packStep_head enc base vsize Hne Hlo Hhead st f h)

/-- C6: for every encoder that returns a nonempty patch set placed at or above
the interval's lower endpoint and containing a patch exactly at that endpoint
(the head block, pinned there before encoding), each relocation-map entry
equals the minimum address among the function's patches, and that minimum
equals the address the head block's Location was bound to before encoding. -/
theorem pack_entry_is_min_and_head_bind (enc : Encoder) (base vsize : Int)
    (funcs : List (Int × AsmCFG)) (db0 : LocDb)
    (Hne : ∀ cfg db iv, enc cfg db iv ≠ [])
    (Hlo : ∀ cfg db iv, ∀ p ∈ enc cfg db iv, iv.1 ≤ p.1)
    (Hhead : ∀ cfg db iv, ∃ p ∈ enc cfg db iv, p.1 = iv.1) :
    (packRun enc base vsize funcs db0).relocMap.map (·.2) =
      (packRun enc base vsize funcs db0).headBinds ∧
    List.Forall₂ (fun r g => r.2 = minKey g)
      (packRun enc base vsize funcs db0).relocMap
      (packRun enc base vsize funcs db0).groups :=
  packFold_head enc base vsize Hne Hlo Hhead funcs (initPackState db0)
    ⟨rfl, List.Forall₂.nil⟩

/-- Witness for C6 with two one-byte functions. -/
theorem pack_entry_is_min_and_head_bind_witness :
    (packRun nopEncoder 4096 65536 [(10, cfgOne), (20, cfgOne)]
        dbOne).relocMap.map (·.2) =
      (packRun nopEncoder 4096 65536 [(10, cfgOne), (20, cfgOne)]
        dbOne).headBinds ∧
    List.Forall₂ (fun r g => r.2 = minKey g)
      (packRun nopEncoder 4096 65536 [(10, cfgOne), (20, cfgOne)] dbOne).relocMap
      (packRun nopEncoder 4096 65536 [(10, cfgOne), (20, cfgOne)] dbOne).groups :=
  pack_entry_is_min_and_head_bind nopEncoder 4096 65536
    [(10, cfgOne), (20, cfgOne)] dbOne
    (fun _ _ _ => by simp [nopEncoder])
    (fun _ _ iv p hp => by
      simp only [nopEncoder, List.mem_singleton] at hp
      rw [hp])
    (fun _ _ iv => ⟨(iv.1, [144]), by simp [nopEncoder]⟩)

/-! ### Lemmas about the location database -/

lemma lookupOff_cons (e : LocKey × Option Int) (t : LocDb) (k : LocKey) :
    lookupOff (e :: t) k = if e.1 = k then e.2 else lookupOff t k := by
  simp only [lookupOff]
  by_cases he : e.1 = k
  · rw [List.find?_cons_of_pos _ (by simp [he]), if_pos he]
  · rw [List.find?_cons_of_neg _ (by simp [he]), if_neg he]

lemma unset_cons (e : LocKey × Option Int) (t : LocDb) (k : LocKey) :
    unsetLocOffset (e :: t) k =
      (if e.1 = k then (k, (none : Option Int)) else e) :: unsetLocOffset t k := rfl

lemma set_cons (e : LocKey × Option Int) (t : LocDb) (k : LocKey) (off : Int) :
    setLocOffset (e :: t) k off =
      (if e.1 = k then (k, some off) else e) :: setLocOffset t k off := rfl

lemma lookupOff_unset_self (db : LocDb) (k : LocKey) :
    lookupOff (unsetLocOffset db k) k = none := by
  induction db with
  | nil => rfl
  | cons e t ih =>
    rw [unset_cons, lookupOff_cons]
    by_cases he : e.1 = k
    · simp [he]
    · simp [he, ih]

lemma lookupOff_unset_ne (db : LocDb) (k k' : LocKey) (h : k' ≠ k) :
    lookupOff (unsetLocOffset db k) k' = lookupOff db k' := by
  induction db with
  | nil => rfl
  | cons e t ih =>
    rw [unset_cons]
    by_cases he : e.1 = k
    · subst he
      rw [if_pos rfl, lookupOff_cons, lookupOff_cons,
        if_neg (fun hh => h hh.symm), if_neg (fun hh => h hh.symm), ih]
    · rw [if_neg he, lookupOff_cons, lookupOff_cons]
      by_cases he2 : e.1 = k'
      · rw [if_pos he2, if_pos he2]
      · rw [if_neg he2, if_neg he2, ih]

lemma lookupOff_set_self (db : LocDb) (k : LocKey) (off : Int)
    (h : k ∈ dbKeys db) : lookupOff (setLocOffset db k off) k = some off := by
  induction db with
  | nil => cases h
  | cons e t ih =>
    rw [set_cons]
    by_cases he : e.1 = k
    · rw [if_pos he, lookupOff_cons, if_pos rfl]
    · rw [if_neg he, lookupOff_cons, if_neg he]
      refine ih ?_
      rcases List.mem_cons.mp h with h1 | h1
      · exact absurd h1.symm he
      · exact h1

lemma lookupOff_set_ne (db : LocDb) (k k' : LocKey) (off : Int) (h : k' ≠ k) :
    lookupOff (setLocOffset db k off) k' = lookupOff db k' := by
  induction db with
  | nil => rfl
  | cons e t ih =>
    rw [set_cons]
    by_cases he : e.1 = k
    · subst he
      rw [if_pos rfl, lookupOff_cons, lookupOff_cons,
        if_neg (fun hh => h hh.symm), if_neg (fun hh => h hh.symm), ih]
    · rw [if_neg he, lookupOff_cons, lookupOff_cons]
      by_cases he2 : e.1 = k'
      · rw [if_pos he2, if_pos he2]
      · rw [if_neg he2, if_neg he2, ih]

lemma dbKeys_unset (db : LocDb) (k : LocKey) :
    dbKeys (unsetLocOffset db k) = dbKeys db := by
  induction db with
  | nil => rfl
  | cons e t ih =>
    rw [unset_cons]
    show (if e.1 = k then ((k : LocKey), (none : Option Int)) else e).1 :: _ = _
    by_cases he : e.1 = k
    · rw [if_pos he]
      show k :: dbKeys (unsetLocOffset t k) = e.1 :: dbKeys t
      rw [ih, he]
    · rw [if_neg he]
      show e.1 :: dbKeys (unsetLocOffset t k) = e.1 :: dbKeys t
      rw [ih]

lemma dbKeys_set (db : LocDb) (k : LocKey) (off : Int) :
    dbKeys (setLocOffset db k off) = dbKeys db := by
  induction db with
  | nil => rfl
  | cons e t ih =>
    rw [set_cons]
    by_cases he : e.1 = k
    · rw [if_pos he]
      show k :: dbKeys (setLocOffset t k off) = e.1 :: dbKeys t
      rw [ih, he]
    · rw [if_neg he]
      show e.1 :: dbKeys (setLocOffset t k off) = e.1 :: dbKeys t
      rw [ih]

lemma unset_of_not_mem (db : LocDb) (k : LocKey) (h : k ∉ dbKeys db) :
    unsetLocOffset db k = db := by
  induction db with
  | nil => rfl
  | cons e t ih =>
    rw [unset_cons]
    have he : e.1 ≠ k := fun hk => h (hk ▸ List.mem_cons_self e.1 (dbKeys t))
    rw [if_neg he, ih (fun hk => h (List.mem_cons_of_mem e.1 hk))]

/-- Unbinding an unbound location leaves the database unchanged (the no-op of
the spec's idempotent-unbinding property), provided keys are not duplicated. -/
lemma unset_noop_of_unbound (db : LocDb) (k : LocKey)
    (hnd : (dbKeys db).Nodup) (h : lookupOff db k = none) :
    unsetLocOffset db k = db := by
  induction db with
  | nil => rfl
  | cons e t ih =>
    rw [lookupOff_cons] at h
    rw [unset_cons]
    by_cases he : e.1 = k
    · rw [if_pos he]
      rw [if_pos he] at h
      have hk : k ∉ dbKeys t := by
        have h2 : e.1 ∉ dbKeys t := (List.nodup_cons.mp hnd).1
        rw [he] at h2
        exact h2
      rw [unset_of_not_mem t k hk]
      have : e = (k, (none : Option Int)) := by
        obtain ⟨e1, e2⟩ := e
        simp only at he h
        rw [he, h]
      rw [this]
    · rw [if_neg he] at h
      rw [if_neg he, ih (List.nodup_cons.mp hnd).2 h]

lemma dbKeys_foldUnset (ks : List LocKey) :
    ∀ db : LocDb, dbKeys (ks.foldl (fun d k => unsetLocOffset d k) db) = dbKeys db := by
  induction ks with
  | nil => intro db; rfl
  | cons k t ih =>
    intro db
    rw [List.foldl_cons, ih, dbKeys_unset]

lemma lookupOff_foldUnset_none (ks : List LocKey) :
    ∀ (db : LocDb) (k : LocKey), lookupOff db k = none →
      lookupOff (ks.foldl (fun d k' => unsetLocOffset d k') db) k = none := by
  induction ks with
  | nil => intro db k h; exact h
  | cons k2 t ih =>
    intro db k h
    rw [List.foldl_cons]
    refine ih _ _ ?_
    by_cases hk : k = k2
    · rw [hk]
      exact lookupOff_unset_self db k2
    · rw [lookupOff_unset_ne db k2 k hk, h]

lemma lookupOff_foldUnset_mem (ks : List LocKey) :
    ∀ (db : LocDb) (k : LocKey), k ∈ ks →
      lookupOff (ks.foldl (fun d k' => unsetLocOffset d k') db) k = none := by
  induction ks with
  | nil => intro db k h; cases h
  | cons k2 t ih =>
    intro db k h
    rcases List.mem_cons.mp h with h1 | h1
    · rw [List.foldl_cons]
      exact lookupOff_foldUnset_none t _ k (h1 ▸ lookupOff_unset_self db k2)
    · rw [List.foldl_cons]
      exact ih _ k h1

/-! ### C8: idempotent unbinding and double relocation -/

/-- A two-block CFG used by the C8 witness. -/
def cfgW : AsmCFG := ⟨LocKey.orig 0, [LocKey.orig 0, LocKey.orig 1]⟩

/-- A database binding that CFG's blocks to their original offsets. -/
def dbW : LocDb := [(LocKey.orig 0, some 999), (LocKey.orig 1, some 1000)]

/-- C8: unbinding an already-unbound Location is a no-op, and relocating the
same CFG object twice with different target addresses leaves only the second
binding in effect: the head is bound to `t2`, every non-head block of the CFG
is unbound, and no location of the CFG is still bound to the first target
`t1`.  The unbinding step is a total function in this model (no error). -/
theorem relocate_twice_no_stale_binding (db : LocDb) (cfg : AsmCFG)
    (t1 t2 : Int) (hhead : cfg.head ∈ cfg.blocks)
    (hsub : ∀ k ∈ cfg.blocks, k ∈ dbKeys db) (hne : t1 ≠ t2) :
    (∀ (db2 : LocDb) (k : LocKey), (dbKeys db2).Nodup →
      lookupOff db2 k = none → unsetLocOffset db2 k = db2) ∧
    lookupOff (relocateBindings (relocateBindings db cfg t1) cfg t2) cfg.head =
      some t2 ∧
    (∀ k ∈ cfg.blocks, k ≠ cfg.head →
      lookupOff (relocateBindings (relocateBindings db cfg t1) cfg t2) k = none) ∧
    (∀ k ∈ cfg.blocks,
      lookupOff (relocateBindings (relocateBindings db cfg t1) cfg t2) k ≠
        some t1) := by
  have keys1 : dbKeys (relocateBindings db cfg t1) = dbKeys db := by
    rw [relocateBindings, dbKeys_set, dbKeys_foldUnset]
  have hheadmem : cfg.head ∈
      dbKeys ((cfg.blocks.foldl (fun d k => unsetLocOffset d k)
        (relocateBindings db cfg t1))) := by
    rw [dbKeys_foldUnset, keys1]
    exact hsub cfg.head hhead
  have hlookhead :
      lookupOff (relocateBindings (relocateBindings db cfg t1) cfg t2) cfg.head =
        some t2 := by
    rw [relocateBindings]
    exact lookupOff_set_self _ _ _ hheadmem
  have hlooknot : ∀ k ∈ cfg.blocks, k ≠ cfg.head →
      lookupOff (relocateBindings (relocateBindings db cfg t1) cfg t2) k = none := by
    intro k hk hkh
    rw [relocateBindings, lookupOff_set_ne _ _ _ _ hkh]
    exact lookupOff_foldUnset_mem cfg.blocks _ k hk
  refine ⟨fun db2 k h1 h2 => unset_noop_of_unbound db2 k h1 h2, hlookhead,
    hlooknot, ?_⟩
  intro k hk
  by_cases hkh : k = cfg.head
  · rw [hkh, hlookhead]
    intro hcontra
    exact hne (Option.some_injective _ hcontra).symm
  · rw [hlooknot k hk hkh]
    exact fun hcontra => Option.noConfusion hcontra

/-- Witness for C8 at a concrete database, CFG and pair of targets. -/
theorem relocate_twice_no_stale_binding_witness :
    (cfgW.head ∈ cfgW.blocks ∧ (∀ k ∈ cfgW.blocks, k ∈ dbKeys dbW) ∧
      (41 : Int) ≠ 42) ∧
    ((∀ (db2 : LocDb) (k : LocKey), (dbKeys db2).Nodup →
      lookupOff db2 k = none → unsetLocOffset db2 k = db2) ∧
    lookupOff (relocateBindings (relocateBindings dbW cfgW 41) cfgW 42)
      cfgW.head = some 42 ∧
    (∀ k ∈ cfgW.blocks, k ≠ cfgW.head →
      lookupOff (relocateBindings (relocateBindings dbW cfgW 41) cfgW 42) k =
        none) ∧
    (∀ k ∈ cfgW.blocks,
      lookupOff (relocateBindings (relocateBindings dbW cfgW 41) cfgW 42) k ≠
        some 41)) :=
  ⟨⟨by decide, by decide, by decide⟩,
   relocate_twice_no_stale_binding dbW cfgW 41 42 (by decide) (by decide)
     (by decide)⟩

/-! ### C10: the dict comprehension keeps the last occurrence of a key -/

lemma dictFind_cons (e : Int × AsmCFG) (t : List (Int × AsmCFG)) (a : Int) :
    dictFind (e :: t) a = if e.1 = a then some e.2 else dictFind t a := by
  simp only [dictFind]
  by_cases he : e.1 = a
  · rw [List.find?_cons_of_pos _ (by simp [he]), if_pos he]
    rfl
  · rw [List.find?_cons_of_neg _ (by simp [he]), if_neg he]

lemma dictFind_map_update_self (d : List (Int × AsmCFG)) (k : Int) (v : AsmCFG)
    (h : (d.any fun e => decide (e.1 = k)) = true) :
    dictFind (d.map (fun e => if e.1 = k then (k, v) else e)) k = some v := by
  induction d with
  | nil => cases h
  | cons e t ih =>
    rw [List.map_cons, dictFind_cons]
    by_cases he : e.1 = k
    · rw [if_pos he]
      rw [if_pos (show ((k, v) : Int × AsmCFG).1 = k from rfl)]
    · rw [if_neg he, if_neg (by simpa using he)]
      refine ih ?_
      simpa [List.any_cons, he] using h

lemma dictFind_map_update_ne (d : List (Int × AsmCFG)) (k : Int) (v : AsmCFG)
    (a : Int) (h : a ≠ k) :
    dictFind (d.map (fun e => if e.1 = k then (k, v) else e)) a = dictFind d a := by
  induction d with
  | nil => rfl
  | cons e t ih =>
    rw [List.map_cons, dictFind_cons, dictFind_cons]
    by_cases he : e.1 = k
    · rw [if_pos he, if_neg (show ((k, v) : Int × AsmCFG).1 ≠ a from
        fun hh => h hh.symm), if_neg (fun hh => h (he ▸ hh).symm), ih]
    · rw [if_neg he]
      by_cases he2 : e.1 = a
      · rw [if_pos he2, if_pos he2]
      · rw [if_neg he2, if_neg he2, ih]

lemma dictFind_append (d1 d2 : List (Int × AsmCFG)) (a : Int) :
    dictFind (d1 ++ d2) a =
      match dictFind d1 a with
      | some x => some x
      | none => dictFind d2 a := by
  induction d1 with
  | nil => rfl
  | cons e t ih =>
    rw [List.cons_append, dictFind_cons, dictFind_cons]
    by_cases he : e.1 = a
    · rw [if_pos he, if_pos he]
    · rw [if_neg he, if_neg he, ih]

lemma dictFind_eq_none_of_any_false (d : List (Int × AsmCFG)) (k : Int)
    (h : (d.any fun e => decide (e.1 = k)) = false) : dictFind d k = none := by
  induction d with
  | nil => rfl
  | cons e t ih =>
    rw [dictFind_cons]
    rw [List.any_cons, Bool.or_eq_false_iff] at h
    rw [if_neg (by simpa using h.1), ih h.2]

lemma dictFind_insert (d : List (Int × AsmCFG)) (k : Int) (v : AsmCFG) (a : Int) :
    dictFind (dictInsert d k v) a = if a = k then some v else dictFind d a := by
  by_cases hany : (d.any fun e => decide (e.1 = k)) = true
  · rw [dictInsert, if_pos hany]
    by_cases hak : a = k
    · subst hak
      rw [if_pos rfl]
      exact dictFind_map_update_self d a v hany
    · rw [if_neg hak]
      exact dictFind_map_update_ne d k v a hak
  · rw [dictInsert, if_neg hany, dictFind_append]
    by_cases hak : a = k
    · subst hak
      rw [dictFind_eq_none_of_any_false d a (Bool.eq_false_iff.mpr hany),
        if_pos rfl, dictFind_cons, if_pos rfl]
    · rw [if_neg hak, dictFind_cons, if_neg (fun hh => hak hh.symm)]
      cases hd : dictFind d a <;> rfl

lemma dictKeys_map_update (d : List (Int × AsmCFG)) (k : Int) (v : AsmCFG) :
    (d.map (fun e => if e.1 = k then (k, v) else e)).map (·.1) = d.map (·.1) := by
  rw [List.map_map]
  refine List.map_congr_left ?_
  intro e he
  by_cases he2 : e.1 = k
  · simp [he2]
  · simp [he2]

lemma keys_not_mem_of_any_false (d : List (Int × AsmCFG)) (k : Int)
    (h : (d.any fun e => decide (e.1 = k)) = false) : k ∉ d.map (·.1) := by
  intro hk
  rcases List.mem_map.mp hk with ⟨e, he, hek⟩
  rw [List.any_eq_false] at h
  exact h e he (by simpa using hek)

lemma dictKeys_insert_mem (d : List (Int × AsmCFG)) (k : Int) (v : AsmCFG)
    (a : Int) :
    a ∈ (dictInsert d k v).map (·.1) ↔ a = k ∨ a ∈ d.map (·.1) := by
  by_cases hany : (d.any fun e => decide (e.1 = k)) = true
  · rw [dictInsert, if_pos hany, dictKeys_map_update]
    constructor
    · exact fun h => Or.inr h
    · intro h
      rcases h with h | h
      · subst h
        rcases List.any_eq_true.mp hany with ⟨e, he, hek⟩
        exact List.mem_map.mpr ⟨e, he, by simpa using hek⟩
      · exact h
  · rw [dictInsert, if_neg hany, List.map_append]
    simp only [List.map_cons, List.map_nil, List.mem_append, List.mem_singleton]
    exact Or.comm

lemma dictKeys_insert_nodup (d : List (Int × AsmCFG)) (k : Int) (v : AsmCFG)
    (h : (d.map (·.1)).Nodup) : ((dictInsert d k v).map (·.1)).Nodup := by
  by_cases hany : (d.any fun e => decide (e.1 = k)) = true
  · rw [dictInsert, if_pos hany, dictKeys_map_update]
    exact h
  · rw [dictInsert, if_neg hany, List.map_append]
    refine List.Nodup.append h (List.nodup_singleton _) ?_
    intro a ha hb
    rw [List.map_cons, List.map_nil, List.mem_singleton] at hb
    rw [hb] at ha
    exact keys_not_mem_of_any_false d k (Bool.eq_false_iff.mpr hany) ha

lemma buildFold_find (l : List (Int × AsmCFG)) :
    ∀ (d : List (Int × AsmCFG)) (a : Int),
      dictFind (l.foldl (fun d p => dictInsert d p.1 p.2) d) a =
        match l.reverse.find? (fun p => decide (p.1 = a)) with
        | some q => some q.2
        | none => dictFind d a := by
  induction l with
  | nil => intro d a; rfl
  | cons p t ih =>
    intro d a
    rw [List.foldl_cons, ih, List.reverse_cons, List.find?_append]
    cases hf : t.reverse.find? (fun p => decide (p.1 = a)) with
    | some q => rfl
    | none =>
      simp only [Option.none_orElse]
      rw [dictFind_insert]
      by_cases hp : p.1 = a
      · rw [List.find?_cons_of_pos _ (by simpa using hp), if_pos hp.symm]
        rfl
      · rw [List.find?_cons_of_neg _ (by simpa using hp),
          if_neg (fun hh => hp hh.symm)]
        rfl

lemma buildFold_keys_mem (l : List (Int × AsmCFG)) :
    ∀ (d : List (Int × AsmCFG)) (a : Int),
      a ∈ (l.foldl (fun d p => dictInsert d p.1 p.2) d).map (·.1) ↔
        a ∈ d.map (·.1) ∨ a ∈ l.map (·.1) := by
  induction l with
  | nil => intro d a; simp
  | cons p t ih =>
    intro d a
    rw [List.foldl_cons, ih, dictKeys_insert_mem]
    simp only [List.map_cons, List.mem_cons]
    tauto

lemma buildFold_keys_nodup (l : List (Int × AsmCFG)) :
    ∀ (d : List (Int × AsmCFG)), (d.map (·.1)).Nodup →
      ((l.foldl (fun d p => dictInsert d p.1 p.2) d).map (·.1)).Nodup := by
  induction l with
  | nil => intro d h; exact h
  | cons p t ih =>
    intro d h
    exact ih _ (dictKeys_insert_nodup d p.1 p.2 h)

/-- C10: when the input address list repeats an address, the dict
comprehension keeps, for that address, the CFG of the LAST occurrence (the
lookup equals the last matching pair of `zip addrs cfgs`), and the number of
entries packed and redirected equals the number of distinct input addresses,
not the length of the input list. -/
theorem funcmap_keeps_last_occurrence (addrs : List Int) (cfgs : List AsmCFG)
    (h : addrs.length = cfgs.length) :
    (buildFuncMap addrs cfgs).length = addrs.dedup.length ∧
    ∀ a, dictFind (buildFuncMap addrs cfgs) a =
      ((addrs.zip cfgs).reverse.find? (fun p => decide (p.1 = a))).map (·.2) := by
  constructor
  · have hnodup : ((buildFuncMap addrs cfgs).map (·.1)).Nodup :=
      buildFold_keys_nodup _ [] List.nodup_nil
    have hmem : ∀ a, a ∈ (buildFuncMap addrs cfgs).map (·.1) ↔ a ∈ addrs := by
      intro a
      rw [buildFuncMap, buildFold_keys_mem]
      simp only [List.map_nil, List.not_mem_nil, false_or]
      constructor
      · intro ha
        have hz : (addrs.zip cfgs).map (fun p => p.1) = addrs :=
          List.map_fst_zip addrs cfgs (le_of_eq h)
        rw [hz] at ha
        exact ha
      · intro ha
        have hz : (addrs.zip cfgs).map (fun p => p.1) = addrs :=
          List.map_fst_zip addrs cfgs (le_of_eq h)
        rw [hz]
        exact ha
    calc (buildFuncMap addrs cfgs).length
        = ((buildFuncMap addrs cfgs).map (·.1)).length :=
          (List.length_map _ _).symm
      _ = ((buildFuncMap addrs cfgs).map (·.1)).toFinset.card :=
          (List.toFinset_card_of_nodup hnodup).symm
      _ = addrs.toFinset.card := by
          congr 1
          ext a
          simp only [List.mem_toFinset]
          exact hmem a
      _ = addrs.dedup.length := List.card_toFinset addrs
  · intro a
    rw [buildFuncMap, buildFold_find]
    cases hf : (addrs.zip cfgs).reverse.find? (fun p => decide (p.1 = a)) <;> rfl

/-- Second one-block CFG fixture. -/
def cfgTwo : AsmCFG := ⟨LocKey.orig 2, [LocKey.orig 2]⟩

/-- Third one-block CFG fixture. -/
def cfgThree : AsmCFG := ⟨LocKey.orig 3, [LocKey.orig 3]⟩

/-- Witness for C10 on the address list `[10, 20, 10]`: the map has 2 entries
and address 10 maps to the third CFG (the last occurrence). -/
theorem funcmap_keeps_last_occurrence_witness :
    ([10, 20, 10] : List Int).length =
      ([cfgOne, cfgTwo, cfgThree] : List AsmCFG).length ∧
    ((buildFuncMap [10, 20, 10] [cfgOne, cfgTwo, cfgThree]).length =
      ([10, 20, 10] : List Int).dedup.length ∧
    dictFind (buildFuncMap [10, 20, 10] [cfgOne, cfgTwo, cfgThree]) 10 =
      ((([10, 20, 10] : List Int).zip
        [cfgOne, cfgTwo, cfgThree]).reverse.find?
          (fun p => decide (p.1 = 10))).map (·.2)) :=
  ⟨rfl,
   (funcmap_keeps_last_occurrence [10, 20, 10] [cfgOne, cfgTwo, cfgThree] rfl).1,
   (funcmap_keeps_last_occurrence [10, 20, 10] [cfgOne, cfgTwo, cfgThree] rfl).2
     10⟩

/-! ### C1: redirect correctness -/

lemma from32_le32 (v : Int) (h0 : 0 ≤ v) (h1 : v < 4294967296) :
    from32 (v % 256) (v / 256 % 256) (v / 65536 % 256) (v / 16777216 % 256) = v := by
  unfold from32
  omega

/-- Decoding the encoded jump at its own address recovers the target. -/
lemma decode_encode_jmp (addr t : Int) (h0 : 0 ≤ t) (h1 : t < 4294967296) :
    decodeInstr addr (encodeInstr addr (X86Instr.jmp t)) =
      some (X86Instr.jmp t) := by
  have hr0 : 0 ≤ (t - (addr + 5)) % 4294967296 :=
    Int.emod_nonneg _ (by norm_num)
  have hr1 : (t - (addr + 5)) % 4294967296 < 4294967296 :=
    Int.emod_lt_of_pos _ (by norm_num)
  simp only [encodeInstr, le32, decodeInstr, if_pos rfl]
  rw [from32_le32 _ hr0 hr1]
  have hmod : (addr + 5 + (t - (addr + 5)) % 4294967296) % 4294967296 = t := by
    omega
  rw [hmod]
  simp

lemma any_key_eq_true_iff (db : LocDb) (k : LocKey) :
    (db.any fun e => decide (e.1 = k)) = true ↔ k ∈ dbKeys db := by
  rw [List.any_eq_true]
  constructor
  · rintro ⟨e, he, hek⟩
    exact List.mem_map.mpr ⟨e, he, by simpa using hek⟩
  · intro hk
    rcases List.mem_map.mp hk with ⟨e, he, hek⟩
    exact ⟨e, he, by simpa using hek⟩

lemma dbKeys_ensure_mem (db : LocDb) (k : LocKey) : k ∈ dbKeys (ensureKey db k) := by
  unfold ensureKey
  by_cases h : (db.any fun e => decide (e.1 = k)) = true
  · rw [if_pos h]
    exact (any_key_eq_true_iff db k).mp h
  · rw [if_neg h]
    rw [dbKeys, List.map_append]
    exact List.mem_append.mpr (Or.inr (List.mem_singleton.mpr rfl))

lemma dbKeys_ensure_of_not_mem (db : LocDb) (k : LocKey) (h : k ∉ dbKeys db) :
    dbKeys (ensureKey db k) = dbKeys db ++ [k] := by
  unfold ensureKey
  rw [if_neg (fun hc => h ((any_key_eq_true_iff db k).mp hc))]
  rw [dbKeys, List.map_append]
  rfl

/-- After the unpin step of a redirect iteration, no entry is bound to `a`. -/
lemma no_offset_after_unpin (db : LocDb) (a : Int) (hinv : AtMostOneOffset db) :
    ∀ e ∈ (match getOffsetLocation db a with
           | some k => unsetLocOffset db k
           | none => db), e.2 ≠ some a := by
  cases hg : getOffsetLocation db a with
  | none =>
    intro e he hcontra
    have hfind : db.find? (fun e => decide (e.2 = some a)) = none := by
      rcases hfo : db.find? (fun e => decide (e.2 = some a)) with _ | ef
      · exact hfo
      · rw [getOffsetLocation, hfo] at hg
        exact Option.noConfusion hg
    have := List.find?_eq_none.mp hfind e he
    simp only [decide_eq_true_eq] at this
    exact this hcontra
  | some k =>
    intro e he hcontra
    rcases List.mem_map.mp he with ⟨e0, he0, hge⟩
    by_cases h0 : e0.1 = k
    · rw [if_pos h0] at hge
      rw [← hge] at hcontra
      exact Option.noConfusion hcontra
    · rw [if_neg h0] at hge
      subst hge
      obtain ⟨ef, hfo, hef1⟩ :
          ∃ ef, db.find? (fun e => decide (e.2 = some a)) = some ef ∧
            ef.1 = k := by
        rcases hfo : db.find? (fun e => decide (e.2 = some a)) with _ | ef
        · rw [getOffsetLocation, hfo] at hg
          exact Option.noConfusion hg
        · rw [getOffsetLocation, hfo] at hg
          exact ⟨ef, hfo, Option.some_injective _ hg⟩
      have hefmem := List.mem_of_find?_eq_some hfo
      have hefpred : ef.2 = some a := by
        have := List.find?_some hfo
        simpa using this
      have := hinv e0 he0 ef hefmem
        (by rw [hcontra]; exact fun hh => Option.noConfusion hh)
        (by rw [hcontra, hefpred])
      exact h0 (this.trans hef1)

lemma atMostOne_unset (db : LocDb) (k : LocKey) (hinv : AtMostOneOffset db) :
    AtMostOneOffset (unsetLocOffset db k) := by
  intro e1 h1 e2 h2 hne heq
  rcases List.mem_map.mp h1 with ⟨e01, he01, hg1⟩
  rcases List.mem_map.mp h2 with ⟨e02, he02, hg2⟩
  by_cases h01 : e01.1 = k
  · rw [if_pos h01] at hg1
    rw [← hg1] at hne
    exact absurd rfl hne
  · rw [if_neg h01] at hg1
    subst hg1
    by_cases h02 : e02.1 = k
    · rw [if_pos h02] at hg2
      rw [← hg2] at heq
      exact absurd heq hne
    · rw [if_neg h02] at hg2
      subst hg2
      exact hinv e01 he01 e02 he02 hne heq

lemma atMostOne_unpin (db : LocDb) (a : Int) (hinv : AtMostOneOffset db) :
    AtMostOneOffset (match getOffsetLocation db a with
      | some k => unsetLocOffset db k
      | none => db) := by
  cases getOffsetLocation db a with
  | none => exact hinv
  | some k => exact atMostOne_unset db k hinv

lemma dbKeys_unpin (db : LocDb) (a : Int) :
    dbKeys (match getOffsetLocation db a with
      | some k => unsetLocOffset db k
      | none => db) = dbKeys db := by
  cases getOffsetLocation db a with
  | none => rfl
  | some k => exact dbKeys_unset db k

/-- The stub's location is bound to `a` in the database a redirect iteration
passes to the encoder. -/
lemma redirectDb_mem_stub (db : LocDb) (a : Int) :
    (LocKey.stub a, some a) ∈ redirectDb db a := by
  unfold redirectDb
  set db1 := (match getOffsetLocation db a with
    | some k => unsetLocOffset db k
    | none => db) with hdb1
  have hk : LocKey.stub a ∈ dbKeys (ensureKey db1 (LocKey.stub a)) :=
    dbKeys_ensure_mem db1 (LocKey.stub a)
  rcases List.mem_map.mp hk with ⟨e0, he0, hek⟩
  refine List.mem_map.mpr ⟨e0, he0, ?_⟩
  rw [if_pos hek]

/-- No location other than the stub's is bound to `a` in the database a
redirect iteration passes to the encoder. -/
lemma redirectDb_only_stub (db : LocDb) (a : Int) (hinv : AtMostOneOffset db) :
    ∀ e ∈ redirectDb db a, e.2 = some a → e.1 = LocKey.stub a := by
  intro e he hea
  unfold redirectDb at he
  rcases List.mem_map.mp he with ⟨e0, he0, hge⟩
  by_cases h0 : e0.1 = LocKey.stub a
  · rw [if_pos h0] at hge
    rw [← hge]
  · rw [if_neg h0] at hge
    subst hge
    rcases List.mem_append.mp (by
        unfold ensureKey at he0
        by_cases hany : ((match getOffsetLocation db a with
            | some k => unsetLocOffset db k
            | none => db).any fun e => decide (e.1 = LocKey.stub a)) = true
        · rw [if_pos hany] at he0
          exact List.mem_append.mpr (Or.inl he0)
        · rw [if_neg hany] at he0
          exact he0) with h1 | h1
    · exact absurd hea (no_offset_after_unpin db a hinv e0 h1)
    · rw [List.mem_singleton] at h1
      rw [h1] at h0
      exact absurd rfl h0

/-- The redirect iteration preserves the at-most-one-binding-per-offset
invariant of the location database. -/
lemma redirectDb_atMostOne (db : LocDb) (a : Int) (hinv : AtMostOneOffset db) :
    AtMostOneOffset (redirectDb db a) := by
  have hinv1 := atMostOne_unpin db a hinv
  have hnone := no_offset_after_unpin db a hinv
  intro e1 h1 e2 h2 hne heq
  unfold redirectDb at h1 h2
  rcases List.mem_map.mp h1 with ⟨e01, he01, hg1⟩
  rcases List.mem_map.mp h2 with ⟨e02, he02, hg2⟩
  have hsplit : ∀ e0, e0 ∈ ensureKey (match getOffsetLocation db a with
      | some k => unsetLocOffset db k
      | none => db) (LocKey.stub a) →
      e0 ∈ (match getOffsetLocation db a with
        | some k => unsetLocOffset db k
        | none => db) ∨ e0 = (LocKey.stub a, (none : Option Int)) := by
    intro e0 he0
    unfold ensureKey at he0
    by_cases hany : ((match getOffsetLocation db a with
        | some k => unsetLocOffset db k
        | none => db).any fun e => decide (e.1 = LocKey.stub a)) = true
    · rw [if_pos hany] at he0
      exact Or.inl he0
    · rw [if_neg hany] at he0
      rcases List.mem_append.mp he0 with h | h
      · exact Or.inl h
      · exact Or.inr (List.mem_singleton.mp h)
  by_cases h01 : e01.1 = LocKey.stub a
  · rw [if_pos h01] at hg1
    by_cases h02 : e02.1 = LocKey.stub a
    · rw [if_pos h02] at hg2
      rw [← hg1, ← hg2]
    · rw [if_neg h02] at hg2
      subst hg2
      rw [← hg1] at heq
      rcases hsplit e02 he02 with h | h
      · exact absurd heq.symm (hnone e02 h)
      · rw [h] at h02
        exact absurd rfl h02
  · rw [if_neg h01] at hg1
    subst hg1
    by_cases h02 : e02.1 = LocKey.stub a
    · rw [if_pos h02] at hg2
      rw [← hg2] at heq
      rcases hsplit e01 he01 with h | h
      · exact absurd (by simpa using heq) (hnone e01 h)
      · rw [h] at h01
        exact absurd rfl h01
    · rw [if_neg h02] at hg2
      subst hg2
      rcases hsplit e01 he01 with ha1 | ha1
      · rcases hsplit e02 he02 with ha2 | ha2
        · exact hinv1 e01 ha1 e02 ha2 hne heq
        · rw [ha2] at heq
          rw [heq] at hne
          exact absurd rfl hne
      · rw [ha1] at hne
        exact absurd rfl hne

/-- The redirect iteration appends exactly the stub's key to the database. -/
lemma redirectDb_keys (db : LocDb) (a : Int)
    (hfresh : LocKey.stub a ∉ dbKeys db) :
    dbKeys (redirectDb db a) = dbKeys db ++ [LocKey.stub a] := by
  unfold redirectDb
  rw [dbKeys_set, dbKeys_ensure_of_not_mem _ _ (by rw [dbKeys_unpin]; exact hfresh),
    dbKeys_unpin]

lemma redirectFold_shift (l : List (Int × Int)) :
    ∀ (db : LocDb) (ps : List Patch) (ts : List RedirectTrace),
      l.foldl redirectStep ⟨db, ps, ts⟩ =
        ⟨(l.foldl redirectStep ⟨db, [], []⟩).db,
         ps ++ (l.foldl redirectStep ⟨db, [], []⟩).patches,
         ts ++ (l.foldl redirectStep ⟨db, [], []⟩).traces⟩ := by
  induction l with
  | nil =>
    intro db ps ts
    simp
  | cons p t ih =>
    intro db ps ts
    rw [List.foldl_cons, List.foldl_cons]
    have hstep : redirectStep ⟨db, ps, ts⟩ p =
        ⟨redirectDb db p.1,
         ps ++ [(p.1, encodeInstr p.1 (X86Instr.jmp p.2))],
         ts ++ [⟨redirectDb db p.1, none,
           [(p.1, encodeInstr p.1 (X86Instr.jmp p.2))]⟩]⟩ := rfl
    have hstep0 : redirectStep ⟨db, [], []⟩ p =
        ⟨redirectDb db p.1,
         [(p.1, encodeInstr p.1 (X86Instr.jmp p.2))],
         [⟨redirectDb db p.1, none,
           [(p.1, encodeInstr p.1 (X86Instr.jmp p.2))]⟩]⟩ := rfl
    have h1 := ih (redirectDb db p.1)
      (ps ++ [(p.1, encodeInstr p.1 (X86Instr.jmp p.2))])
      (ts ++ [RedirectTrace.mk (redirectDb db p.1) none
        [(p.1, encodeInstr p.1 (X86Instr.jmp p.2))]])
    have h2 := ih (redirectDb db p.1)
      [(p.1, encodeInstr p.1 (X86Instr.jmp p.2))]
      [RedirectTrace.mk (redirectDb db p.1) none
        [(p.1, encodeInstr p.1 (X86Instr.jmp p.2))]]
    rw [hstep, hstep0, h1, h2]
    simp [List.append_assoc]

lemma forall₂_and_left {α β : Type} {R : α → β → Prop} {Q : α → Prop} :
    ∀ {l1 : List α} {l2 : List β}, List.Forall₂ R l1 l2 → (∀ x ∈ l1, Q x) →
      List.Forall₂ (fun x y => Q x ∧ R x y) l1 l2 := by
  intro l1 l2 h hq
  induction h with
  | nil => exact List.Forall₂.nil
  | cons hr ht ih =>
    exact List.Forall₂.cons ⟨hq _ (List.mem_cons_self _ _), hr⟩
      (ih (fun x hx => hq x (List.mem_cons_of_mem _ hx)))

lemma filter_mapped_patches (l : List (Int × Int)) :
    (l.map (·.1)).Nodup → ∀ p ∈ l,
      (l.map (fun q => ((q.1 : Int),
        encodeInstr q.1 (X86Instr.jmp q.2)))).filter (fun r => r.1 == p.1) =
        [(p.1, encodeInstr p.1 (X86Instr.jmp p.2))] := by
  induction l with
  | nil => intro _ p hp; cases hp
  | cons x t ih =>
    intro hnd p hp
    have hx_notin : x.1 ∉ t.map (·.1) := (List.nodup_cons.mp hnd).1
    rcases List.mem_cons.mp hp with rfl | hp2
    · rw [List.map_cons, List.filter_cons, if_pos (by simp)]
      have hnil : (t.map (fun q => ((q.1 : Int),
          encodeInstr q.1 (X86Instr.jmp q.2)))).filter (fun r => r.1 == p.1) =
          [] := by
        rw [List.filter_eq_nil_iff]
        intro r hr
        rcases List.mem_map.mp hr with ⟨q, hq, rfl⟩
        simp only [beq_iff_eq]
        intro hq1
        exact hx_notin (hq1 ▸ List.mem_map_of_mem (·.1) hq)
      rw [hnil]
    · rw [List.map_cons, List.filter_cons]
      have hxp : x.1 ≠ p.1 := by
        intro hcontra
        exact hx_notin (hcontra ▸ List.mem_map_of_mem (·.1) hp2)
      rw [if_neg (by simpa using hxp)]
      exact ih (List.nodup_cons.mp hnd).2 p hp2

lemma redirectFold_spec (l : List (Int × Int)) :
    ∀ db : LocDb, (l.map (·.1)).Nodup → AtMostOneOffset db →
      (∀ p ∈ l, LocKey.stub p.1 ∉ dbKeys db) →
      List.Forall₂ (fun p tr =>
        tr.patches = [(p.1, encodeInstr p.1 (X86Instr.jmp p.2))] ∧
        tr.dstInterval = none ∧
        (LocKey.stub p.1, some p.1) ∈ tr.dbAtEncode ∧
        (∀ e ∈ tr.dbAtEncode, e.2 = some p.1 → e.1 = LocKey.stub p.1))
        l (l.foldl redirectStep ⟨db, [], []⟩).traces ∧
      (l.foldl redirectStep ⟨db, [], []⟩).patches =
        l.map (fun p => ((p.1 : Int), encodeInstr p.1 (X86Instr.jmp p.2))) := by
  induction l with
  | nil => intro db _ _ _; exact ⟨List.Forall₂.nil, rfl⟩
  | cons p t ih =>
    intro db hnd hinv hfresh
    rw [List.foldl_cons]
    have hstep0 : redirectStep ⟨db, [], []⟩ p =
        ⟨redirectDb db p.1,
         [(p.1, encodeInstr p.1 (X86Instr.jmp p.2))],
         [⟨redirectDb db p.1, none,
           [(p.1, encodeInstr p.1 (X86Instr.jmp p.2))]⟩]⟩ := rfl
    rw [hstep0, redirectFold_shift]
    have hfreshp : LocKey.stub p.1 ∉ dbKeys db :=
      hfresh p (List.mem_cons_self p t)
    have hnd2 : (t.map (·.1)).Nodup := (List.nodup_cons.mp hnd).2
    have hp_notin : p.1 ∉ t.map (·.1) := (List.nodup_cons.mp hnd).1
    have hinv2 : AtMostOneOffset (redirectDb db p.1) :=
      redirectDb_atMostOne db p.1 hinv
    have hfresh2 : ∀ q ∈ t, LocKey.stub q.1 ∉ dbKeys (redirectDb db p.1) := by
      intro q hq
      rw [redirectDb_keys db p.1 hfreshp]
      intro hmem
      rcases List.mem_append.mp hmem with h | h
      · exact hfresh q (List.mem_cons_of_mem p hq) h
      · rw [List.mem_singleton] at h
        have hqp : q.1 = p.1 := by simpa using h
        exact hp_notin (hqp ▸ List.mem_map_of_mem (·.1) hq)
    obtain ⟨ihF, ihP⟩ := ih (redirectDb db p.1) hnd2 hinv2 hfresh2
    constructor
    · exact List.Forall₂.cons
        ⟨rfl, rfl, redirectDb_mem_stub db p.1, redirectDb_only_stub db p.1 hinv⟩
        ihF
    · rw [List.map_cons]
      rw [List.singleton_append, ihP]

/-- C1: for every `(a, b)` in the relocation map (addresses in `[0, 2^32)`,
distinct originals, well-formed database with no pre-existing stub labels),
the redirect loop writes at `a` exactly one patch, whose bytes decode to a
single unconditional jump with target `b`; before its encoder invocation the
location previously bound at `a` (if any) is unbound and the stub's location
is bound to `a` (no other location is bound to `a`); and the encoder is
invoked with no placement interval. -/
theorem redirect_stub_correct (relocMap : List (Int × Int)) (db0 : LocDb)
    (hnd : (relocMap.map (·.1)).Nodup)
    (hb : ∀ p ∈ relocMap, 0 ≤ p.2 ∧ p.2 < 4294967296)
    (hinv : AtMostOneOffset db0)
    (hfresh : ∀ p ∈ relocMap, LocKey.stub p.1 ∉ dbKeys db0) :
    List.Forall₂ (fun p tr =>
      decodeInstr p.1 (encodeInstr p.1 (X86Instr.jmp p.2)) =
        some (X86Instr.jmp p.2) ∧
      (tr.patches = [(p.1, encodeInstr p.1 (X86Instr.jmp p.2))] ∧
       tr.dstInterval = none ∧
       (LocKey.stub p.1, some p.1) ∈ tr.dbAtEncode ∧
       (∀ e ∈ tr.dbAtEncode, e.2 = some p.1 → e.1 = LocKey.stub p.1)))
      relocMap (redirectRun db0 relocMap).traces ∧
    ∀ p ∈ relocMap,
      ((redirectRun db0 relocMap).patches.filter (fun r => r.1 == p.1)) =
        [(p.1, encodeInstr p.1 (X86Instr.jmp p.2))] := by
  obtain ⟨hF, hP⟩ := redirectFold_spec relocMap db0 hnd hinv hfresh
  constructor
  · exact forall₂_and_left hF
      (fun p hp => decode_encode_jmp p.1 p.2 (hb p hp).1 (hb p hp).2)
  · intro p hp
    rw [redirectRun, hP]
    exact filter_mapped_patches relocMap hnd p hp

/-- Relocation map fixture for the C1 witness. -/
def redirectMapW : List (Int × Int) := [(100, 5000), (200, 6000)]

/-- Database fixture for the C1 witness: two disassembler locations bound at
the two original addresses. -/
def redirectDbW : LocDb := [(LocKey.orig 7, some 100), (LocKey.orig 8, some 200)]

/-- Witness for C1 on two concrete redirects. -/
theorem redirect_stub_correct_witness :
    ((redirectMapW.map (·.1)).Nodup ∧
     (∀ p ∈ redirectMapW, 0 ≤ p.2 ∧ p.2 < 4294967296) ∧
     AtMostOneOffset redirectDbW ∧
     (∀ p ∈ redirectMapW, LocKey.stub p.1 ∉ dbKeys redirectDbW)) ∧
    (List.Forall₂ (fun p tr =>
      decodeInstr p.1 (encodeInstr p.1 (X86Instr.jmp p.2)) =
        some (X86Instr.jmp p.2) ∧
      (tr.patches = [(p.1, encodeInstr p.1 (X86Instr.jmp p.2))] ∧
       tr.dstInterval = none ∧
       (LocKey.stub p.1, some p.1) ∈ tr.dbAtEncode ∧
       (∀ e ∈ tr.dbAtEncode, e.2 = some p.1 → e.1 = LocKey.stub p.1)))
      redirectMapW (redirectRun redirectDbW redirectMapW).traces ∧
    ∀ p ∈ redirectMapW,
      ((redirectRun redirectDbW redirectMapW).patches.filter
        (fun r => r.1 == p.1)) =
        [(p.1, encodeInstr p.1 (X86Instr.jmp p.2))]) :=
  ⟨⟨by decide, by decide, by decide, by decide⟩,
   redirect_stub_correct redirectMapW redirectDbW (by decide) (by decide)
     (by decide) (by decide)⟩

end ThemidaUnmutate
